import Mathlib

/-!
Verification of `aslap` (`main.go`), a terminal filter that re-emits each
input character after a delay derived from the character's code point.

The embedding models, faithfully to the source:
  * `bePatient`          — the delay ("patience") constructor (`main.go:53`);
  * `printImpatiently`   — the debug wrapper (`main.go:44`);
  * `copyRunesWithPatience` — the paced copy loop (`main.go:65`), including the
    `bufio.Scanner`/`bufio.ScanRunes` tokenization and `utf8.DecodeRune`
    decoding it relies on;
  * `makeFlush`          — the flush-capability dispatch (`main.go:95`);
  * `runMain`            — the wiring in `main` (`main.go:28`).

Bytes and runes are `Nat` (all the Go values involved are non-negative);
`time.Duration` values are `Int`. I/O is reified as an event trace: each
`dst.Write`, each invocation of the bound flush action, each `time.Sleep`,
and each call of the patience function become trace events.
-/

/-- `runeError`: Go `utf8.RuneError` (U+FFFD), the replacement character. -/
def runeError : Nat := 0xFFFD

/-- One row of Go `utf8.acceptRanges`: the valid range for the second byte. -/
structure AcceptRange where
  lo : Nat
  hi : Nat
deriving Repr, DecidableEq

/-- Go `utf8.acceptRanges`. -/
def acceptRanges : List AcceptRange :=
  [⟨0x80, 0xBF⟩, ⟨0xA0, 0xBF⟩, ⟨0x80, 0x9F⟩, ⟨0x90, 0xBF⟩, ⟨0x80, 0x8F⟩]

/-- Go `utf8.first`: information about the first byte of a UTF-8 sequence.
`0xF0` (`as`) marks an ASCII byte, `0xF1` (`xx`) an invalid first byte;
otherwise the low 3 bits hold the sequence size and the high 4 bits index
`acceptRanges`. Written as nested conditionals over the byte ranges the Go
256-entry table encodes. -/
def utf8First (b : Nat) : Nat :=
  if b ≤ 0x7F then 0xF0       -- 0x00..0x7F: as (ASCII)
  else if b ≤ 0xC1 then 0xF1  -- 0x80..0xC1: xx (invalid)
  else if b ≤ 0xDF then 0x02  -- 0xC2..0xDF: s1
  else if b = 0xE0 then 0x13  -- 0xE0: s2
  else if b ≤ 0xEC then 0x03  -- 0xE1..0xEC: s3
  else if b = 0xED then 0x23  -- 0xED: s4
  else if b ≤ 0xEF then 0x03  -- 0xEE..0xEF: s3
  else if b = 0xF0 then 0x34  -- 0xF0: s5
  else if b ≤ 0xF3 then 0x04  -- 0xF1..0xF3: s6
  else if b = 0xF4 then 0x44  -- 0xF4: s7
  else 0xF1                   -- 0xF5..0xFF: xx

/-- Go `utf8.DecodeRune(p)`, returning `(r, size)`. Byte accesses mirror the
Go indexing (`p[0]`, `p[1]`, ...) via `List.getD`; each access is guarded by
the same length/validity checks as the source (masks `mask2 = 0x1F`,
`mask3 = 0x0F`, `mask4 = 0x07`, `maskx = 0x3F`, bounds `locb = 0x80`,
`hicb = 0xBF`). -/
def decodeRune (p : List Nat) : Nat × Nat :=
  if p.length < 1 then (runeError, 0)
  else if 0xF0 ≤ utf8First (p.getD 0 0) then
    -- ASCII byte decodes to itself; an invalid first byte to RuneError
    (if utf8First (p.getD 0 0) = 0xF0 then p.getD 0 0 else runeError, 1)
  else if p.length < utf8First (p.getD 0 0) &&& 7 then (runeError, 1)
  else if p.getD 1 0 < (acceptRanges.getD (utf8First (p.getD 0 0) >>> 4) ⟨0, 0⟩).lo ∨
          (acceptRanges.getD (utf8First (p.getD 0 0) >>> 4) ⟨0, 0⟩).hi < p.getD 1 0 then
    (runeError, 1)
  else if utf8First (p.getD 0 0) &&& 7 ≤ 2 then
    (((p.getD 0 0 &&& 0x1F) <<< 6) ||| (p.getD 1 0 &&& 0x3F), 2)
  else if p.getD 2 0 < 0x80 ∨ 0xBF < p.getD 2 0 then (runeError, 1)
  else if utf8First (p.getD 0 0) &&& 7 ≤ 3 then
    (((p.getD 0 0 &&& 0x0F) <<< 12) ||| ((p.getD 1 0 &&& 0x3F) <<< 6) ||| (p.getD 2 0 &&& 0x3F), 3)
  else if p.getD 3 0 < 0x80 ∨ 0xBF < p.getD 3 0 then (runeError, 1)
  else (((p.getD 0 0 &&& 0x07) <<< 18) ||| ((p.getD 1 0 &&& 0x3F) <<< 12) |||
        ((p.getD 2 0 &&& 0x3F) <<< 6) ||| (p.getD 3 0 &&& 0x3F), 4)

/-- Go `utf8.FullRune(p)`: whether `p` begins with a full UTF-8 encoding of a
rune (an erroneous encoding counts as full). -/
def fullRune (p : List Nat) : Bool :=
  match p with
  | [] => false
  | b :: _ =>
    if utf8First b &&& 7 ≤ p.length then true
    else if 1 < p.length ∧
        (p.getD 1 0 < (acceptRanges.getD (utf8First b >>> 4) ⟨0, 0⟩).lo ∨
         (acceptRanges.getD (utf8First b >>> 4) ⟨0, 0⟩).hi < p.getD 1 0) then true
    else if 2 < p.length ∧ (p.getD 2 0 < 0x80 ∨ 0xBF < p.getD 2 0) then true
    else false

/-- Go `bufio.errorRune`: `[]byte(string(utf8.RuneError))`, the UTF-8 encoding
of U+FFFD. `bufio.ScanRunes` emits this token — not the offending input byte —
for each byte of an erroneous encoding. -/
def errorRuneBytes : List Nat := [0xEF, 0xBF, 0xBD]

/-- Go `bufio.ScanRunes(data, atEOF)`, returning `(advance, token)`.
`(0, [])` stands for Go's `(0, nil, nil)` (request more data / done). -/
def scanRunesStep (data : List Nat) (atEOF : Bool) : Nat × List Nat :=
  if atEOF ∧ data.length = 0 then (0, [])
  else
    match data with
    | [] => (0, [])  -- the Scanner only passes empty data at EOF
    | b :: _ =>
      -- Fast path 1: ASCII
      if b < 0x80 then (1, data.take 1)
      -- Fast path 2: correct multi-byte UTF-8 decode
      else if 1 < (decodeRune data).2 then ((decodeRune data).2, data.take (decodeRune data).2)
      -- Incomplete encoding: request more bytes
      else if ¬ atEOF ∧ ¬ fullRune data then (0, [])
      -- Real encoding error: emit the encoded replacement rune, advance one byte
      else (1, errorRuneBytes)

/-- The sequence of tokens `bufio.Scanner` (split by `ScanRunes`) produces on a
fully buffered input. Mid-stream the scanner retries an incomplete suffix with
more data until EOF, so on the complete input every step runs with the whole
remainder available, i.e. with `atEOF = true`. `fuel` is a step budget; one
byte of input is consumed per step at minimum, so `data.length` suffices. -/
def scanTokensGo (fuel : Nat) (data : List Nat) : List (List Nat) :=
  match fuel, data with
  | 0, _ => []
  | _, [] => []
  | fuel + 1, _ :: _ =>
    (scanRunesStep data true).2 :: scanTokensGo fuel (data.drop (scanRunesStep data true).1)

/-- Tokenization of the whole input stream by `bufio.Scanner` + `ScanRunes`. -/
def scanTokens (data : List Nat) : List (List Nat) := scanTokensGo data.length data

/-- The zero-argument flush action `makeFlush` binds (`main.go:95`). -/
inductive FlushAction where
  /-- `http.Flusher`-style `Flush()`: a flush that cannot fail. -/
  | flushUnit
  /-- `bufio.Writer`-style `Flush() error`, invoked with its error ignored. -/
  | flushErrIgnored
  /-- `os.File`-style `Sync() error`, invoked with its error ignored. -/
  | syncIgnored
  /-- No capability: the action does nothing. -/
  | noop
deriving Repr, DecidableEq

/-- Which `Flush` method, if any, the dynamic type of the destination has.
A Go type has at most one method named `Flush`, so it satisfies at most one
of `interface{ Flush() }` and `interface{ Flush() error }`; a single field
captures that mutual exclusion. -/
inductive FlushSig where
  | missing  -- no Flush method
  | unit     -- Flush()
  | err      -- Flush() error
deriving Repr, DecidableEq

/-- The interface capabilities of an output destination that `makeFlush`
probes: its `Flush` signature and whether it has `Sync() error`. -/
structure WriterCaps where
  flushSig : FlushSig
  hasSync : Bool
deriving Repr, DecidableEq

/-- Go `makeFlush(w)` (`main.go:95`): the type switch
`case flusher / case safeFlusher / case syncer / default`, in source order. -/
def makeFlush (w : WriterCaps) : FlushAction :=
  match w.flushSig with
  | FlushSig.unit => FlushAction.flushUnit         -- case flusher: Flush()
  | FlushSig.err => FlushAction.flushErrIgnored    -- case safeFlusher: Flush() error, ignored
  | FlushSig.missing =>
    if w.hasSync then FlushAction.syncIgnored      -- case syncer: Sync() error, ignored
    else FlushAction.noop                          -- default: no-op

/-- The flush binding in the priority order the spec's words give it:
(1) a flush operation that may itself fail, error ignored; (2) a flush
operation that cannot fail; (3) a sync-to-storage operation, error ignored;
(4) otherwise a no-op. Stated from the spec for comparison with `makeFlush`. -/
def makeFlushSpecOrder (w : WriterCaps) : FlushAction :=
  match w.flushSig with
  | FlushSig.err => FlushAction.flushErrIgnored
  | FlushSig.unit => FlushAction.flushUnit
  | FlushSig.missing =>
    if w.hasSync then FlushAction.syncIgnored
    else FlushAction.noop

/-- One observable step of the copy loop, in program order. -/
inductive Event where
  /-- `delay := patience(r)`: the patience function was called on rune `r`
  and returned `d`. -/
  | pat (r : Nat) (d : Int)
  /-- `dst.Write(bs[:size])` succeeded, transferring exactly these bytes. -/
  | write (bs : List Nat)
  /-- `flush()`: the bound flush action was invoked. -/
  | flush (a : FlushAction)
  /-- `time.Sleep(delay)`. -/
  | sleep (d : Int)
deriving Repr, DecidableEq

/-- The output destination: its flush/sync capabilities plus a failure model —
`failAt = some k` makes the k-th `Write` call (0-based) return an error. -/
structure DstWriter where
  caps : WriterCaps
  failAt : Option Nat
deriving Repr, DecidableEq

/-- The input stream: the bytes delivered before the stream ends, and whether
it ended with a read error (`scanner.Err() != nil`) rather than EOF. -/
structure Src where
  bytes : List Nat
  readErr : Bool
deriving Repr, DecidableEq

/-- The error `copyRunesWithPatience` returns, when it returns one. -/
inductive CopyError where
  | writeErr  -- a dst.Write call failed
  | readErr   -- scanner.Err() was non-nil after the loop
deriving Repr, DecidableEq

/-- The inner loop of `copyRunesWithPatience` (`main.go:73-85`): decode and
write the current token `bs` rune by rune. Returns the events emitted, the
updated write-call counter, and `true` on success / `false` when a `Write`
failed (Go: `return err`). `fuel` is a step budget (each step consumes at
least one byte, so `bs.length` suffices); recursion is on the fuel. -/
def writeRunesGo (fa : FlushAction) (failAt : Option Nat) (patience : Nat → Int) :
    Nat → Nat → List Nat → List Event × Nat × Bool
  | _, wc, [] => ([], wc, true)
  | 0, wc, _ :: _ => ([], wc, true)
  | fuel + 1, wc, b :: bs =>
    let r := (decodeRune (b :: bs)).1
    let size := (decodeRune (b :: bs)).2
    let delay := patience r
    if failAt = some wc then
      -- dst.Write(bs[:size]) fails: the error is returned at once,
      -- before flush() and time.Sleep(delay)
      ([Event.pat r delay], wc + 1, false)
    else
      let rest := writeRunesGo fa failAt patience fuel (wc + 1) ((b :: bs).drop size)
      (Event.pat r delay :: Event.write ((b :: bs).take size) ::
         Event.flush fa :: Event.sleep delay :: rest.1,
       rest.2.1, rest.2.2)

/-- The inner loop entry point: budget = token length. -/
def writeRunes (fa : FlushAction) (failAt : Option Nat) (patience : Nat → Int)
    (wc : Nat) (bs : List Nat) : List Event × Nat × Bool :=
  writeRunesGo fa failAt patience bs.length wc bs

/-- The outer loop of `copyRunesWithPatience` (`main.go:71`): one scanner token
per iteration, stopping at the first failed write. -/
def copyTokens (fa : FlushAction) (failAt : Option Nat) (patience : Nat → Int) :
    Nat → List (List Nat) → List Event × Nat × Bool
  | wc, [] => ([], wc, true)
  | wc, bs :: toks =>
    let w := writeRunes fa failAt patience wc bs
    if w.2.2 then
      let rest := copyTokens fa failAt patience w.2.1 toks
      (w.1 ++ rest.1, rest.2.1, rest.2.2)
    else (w.1, w.2.1, false)

/-- Go `copyRunesWithPatience(dst, src, patience)` (`main.go:65`): binds the
flush action once via `makeFlush`, drives the scanner over the input, and
returns the event trace together with the error result (`nil` = `none`;
a failed write aborts with that error; otherwise `scanner.Err()`). -/
def copyRunesWithPatience (dst : DstWriter) (src : Src) (patience : Nat → Int) :
    List Event × Option CopyError :=
  let res := copyTokens (makeFlush dst.caps) dst.failAt patience 0 (scanTokens src.bytes)
  if res.2.2 then (res.1, if src.readErr then some CopyError.readErr else none)
  else (res.1, some CopyError.writeErr)

/-- Go `bePatient(bits, initial, step)` (`main.go:53`): `none` models
`panic("too many bits")` for `bits >= 8`; otherwise the returned closure is
`initial + step*time.Duration(mask&b)` with `mask = (0x1 << bits) - 1`. -/
def bePatient (bits : Nat) (initial step : Int) : Option (Nat → Int) :=
  if bits ≥ 8 then none
  else some fun b => initial + step * ((((1 <<< bits) - 1 : Nat) &&& b : Nat) : Int)

/-- One line printed by `printImpatiently`'s `fmt.Fprintf(dst, "%q %U %s\n", ...)`
(`main.go:47`), kept as its three formatted fields: the rune rendered as a
quoted literal (`%q` of `string(b)`), the code point (`%U`), and the delay. -/
structure DebugRecord where
  quoted : String
  codePoint : Nat
  delay : Int
deriving Repr, DecidableEq

/-- A hexadecimal digit character, lowercase, as Go `strconv` renders them. -/
def hexDigit (n : Nat) : Char :=
  if n < 10 then Char.ofNat (0x30 + n) else Char.ofNat (0x57 + n)

/-- Model of Go `%q` applied to `string(b)` for a rune `b`. Faithful on
ASCII: printable ASCII is wrapped in double quotes, with `"` and `\`
backslash-escaped, and the common control characters use their Go named
escapes. Outside ASCII, Go consults Unicode printability tables; none of the
verified properties exercise that region, and it is rendered here with the
`\u`/`\U` hex escape Go uses for non-printable code points. -/
def goQuoteRune (b : Nat) : String :=
  if 0x20 ≤ b ∧ b ≤ 0x7E then
    if b = 0x22 ∨ b = 0x5C then
      "\"" ++ String.singleton '\\' ++ String.singleton (Char.ofNat b) ++ "\""
    else
      "\"" ++ String.singleton (Char.ofNat b) ++ "\""
  else if b = 0x09 then "\"\\t\""
  else if b = 0x0A then "\"\\n\""
  else if b = 0x0D then "\"\\r\""
  else if b ≤ 0xFFFF then
    "\"\\u" ++ String.mk [hexDigit (b >>> 12 &&& 0xF), hexDigit (b >>> 8 &&& 0xF),
                          hexDigit (b >>> 4 &&& 0xF), hexDigit (b &&& 0xF)] ++ "\""
  else
    "\"\\U" ++ String.mk [hexDigit (b >>> 28 &&& 0xF), hexDigit (b >>> 24 &&& 0xF),
                          hexDigit (b >>> 20 &&& 0xF), hexDigit (b >>> 16 &&& 0xF),
                          hexDigit (b >>> 12 &&& 0xF), hexDigit (b >>> 8 &&& 0xF),
                          hexDigit (b >>> 4 &&& 0xF), hexDigit (b &&& 0xF)] ++ "\""

/-- The diagnostic line `printImpatiently` emits for one call: the rune as a
quoted literal, its code point, and the delay that was computed. -/
def printImpatientlyLine (r : Nat) (d : Int) : DebugRecord := ⟨goQuoteRune r, r, d⟩

/-- Go `printImpatiently(dst, f)` (`main.go:44`) as a pure function: one call
of the wrapper computes `delay := f(b)`, prints the diagnostic line, and
returns `delay`. The printed line is the first component; the returned delay
the second. -/
def printImpatiently (f : Nat → Int) : Nat → DebugRecord × Int :=
  fun b =>
    let delay := f b
    (printImpatientlyLine b delay, delay)

/-- The write tokens of a trace, in order: the byte slices of the successful
`dst.Write` calls. -/
def writeEventsList (evs : List Event) : List (List Nat) :=
  evs.filterMap fun e =>
    match e with
    | Event.write bs => some bs
    | _ => none

/-- All bytes a trace delivered to the destination, in order. -/
def writtenBytes (evs : List Event) : List Nat := (writeEventsList evs).flatten

/-- The number of `time.Sleep` events in a trace. -/
def sleepCount (evs : List Event) : Nat :=
  (evs.filterMap fun e =>
    match e with
    | Event.sleep d => some d
    | _ => none).length

/-- The flush actions a trace invoked, in order. -/
def flushActionsList (evs : List Event) : List FlushAction :=
  evs.filterMap fun e =>
    match e with
    | Event.flush a => some a
    | _ => none

/-- The `(rune, delay)` pairs of the patience calls in a trace, in order. -/
def patCallsList (evs : List Event) : List (Nat × Int) :=
  evs.filterMap fun e =>
    match e with
    | Event.pat r d => some (r, d)
    | _ => none

/-- The observable outcome of one program run. -/
structure MainResult where
  /-- Process exit status: 0 on normal return from `main`, 2 when the Go
  runtime aborts on `panic("too many bits")`. -/
  exitCode : Nat
  /-- The bytes that reach `os.Stdout` as copied output. Under `-debug` the
  copy destination is `ioutil.Discard`, whose writes succeed and drop the
  bytes, so no copied byte reaches the real output stream. -/
  stdoutBytes : List Nat
  /-- The diagnostic lines `printImpatiently` printed: one per call of the
  wrapped patience function, i.e. one per `Event.pat` of the copy trace. -/
  diag : List DebugRecord
  /-- The value `copyRunesWithPatience` returned — `main.go:37` discards it.
  `none` means the copy never ran (startup panic). -/
  copyResult : Option (Option CopyError)
deriving Repr, DecidableEq

/-- Go `main` (`main.go:28`): build the patience function (panicking on a bad
bit width), optionally substitute `ioutil.Discard` for the destination and
wrap the patience function with `printImpatiently`, run the copy, and — as the
source does — ignore the copy's error result and return, exiting 0. -/
def runMain (bits : Nat) (initial step : Int) (debug : Bool) (dst : DstWriter) (src : Src) :
    MainResult :=
  match bePatient bits initial step with
  | none => ⟨2, [], [], none⟩  -- panic("too many bits"): no I/O happened
  | some delay =>
    if debug then
      -- dst = ioutil.Discard (no Flush/Sync methods, writes never fail);
      -- the wrapper returns each inner delay unchanged and prints one line
      -- per call, so the lines are read off the trace's patience calls.
      let res := copyRunesWithPatience ⟨⟨FlushSig.missing, false⟩, none⟩ src delay
      ⟨0, [],
       (patCallsList res.1).map fun rd => printImpatientlyLine rd.1 rd.2,
       some res.2⟩
    else
      let res := copyRunesWithPatience dst src delay
      ⟨0, writtenBytes res.1, [], some res.2⟩

/-- Two's-complement normalization to the `int64` range: the value a Go
`int64` computation holds after overflow wraps. -/
def wrap64 (n : Int) : Int := (n + 2 ^ 63) % 2 ^ 64 - 2 ^ 63

/-- Go `bePatient` (`main.go:53`) with the `int64` arithmetic of
`time.Duration` made explicit: `step*time.Duration(mask&b)` is an `int64`
multiplication and the outer `initial + _` an `int64` addition, both wrapping
on overflow (`mask&b` itself is at most 255, so the mask step never wraps).
For `initial` and `step` in the `int64` range — every value the flag layer
can supply — this is exactly the delay the program computes. `bePatient`
above states the source formula in unbounded integers, which coincides with
this whenever no intermediate value overflows; counting distinct delay
values depends on the overflow behavior, so it is done against this model. -/
def bePatient64 (bits : Nat) (initial step : Int) : Option (Nat → Int) :=
  if bits ≥ 8 then none
  else some fun b =>
    wrap64 (initial + wrap64 (step * ((((1 <<< bits) - 1 : Nat) &&& b : Nat) : Int)))

/-- The set of delay values the (int64-faithful) patience function takes over
the full code-point domain U+0000..U+10FFFF (empty when construction
panics). -/
def delaySet64 (bits : Nat) (initial step : Int) : Finset Int :=
  match bePatient64 bits initial step with
  | none => ∅
  | some f => (Finset.range 0x110000).image f


set_option maxHeartbeats 1000000 in
lemma utf8First_high {b : Nat} (h : utf8First b < 0xF0) :
    2 ≤ utf8First b &&& 7 ∧ utf8First b &&& 7 ≤ 4 ∧ 0xC2 ≤ b := by
  unfold utf8First at h ⊢
  split_ifs at h ⊢ <;>
    first
      | exact absurd h (by decide)
      | exact ⟨by decide, by decide, by omega⟩

lemma getD_append_lt {l l' : List Nat} {i : Nat} (h : i < l.length) :
    (l ++ l').getD i 0 = l.getD i 0 := by
  simp [List.getD_eq_getElem?_getD, List.getElem?_append_left h]

lemma getD_take_lt {l : List Nat} {n i : Nat} (h : i < n) :
    (l.take n).getD i 0 = l.getD i 0 := by
  simp [List.getD_eq_getElem?_getD, List.getElem?_take_of_lt h]

set_option maxHeartbeats 1000000 in
/-- A decode that consumed at least two bytes certifies: the input is at
least that long, its first byte is a multi-byte lead, and the consumed size
equals the size class of the lead byte. -/
lemma decodeRune_facts {p : List Nat} {r w : Nat} (h2 : 2 ≤ w)
    (hd : decodeRune p = (r, w)) :
    w ≤ p.length ∧ 0xC2 ≤ p.getD 0 0 ∧ utf8First (p.getD 0 0) &&& 7 = w ∧
      ¬ 0xF0 ≤ utf8First (p.getD 0 0) := by
  unfold decodeRune at hd
  split_ifs at hd with c1 c2 c2' c3 c4 c5 c6 c7 c8 <;>
    first
      | (injection hd with hr hw; omega)
      | (injection hd with hr hw
         have hhi := utf8First_high (show utf8First (p.getD 0 0) < 0xF0 by omega)
         exact ⟨by omega, by omega, by omega, by omega⟩)

set_option maxHeartbeats 1000000 in
/-- `DecodeRune` only reads the first `size` bytes: any list at least `size`
long that agrees with `p` on those bytes decodes identically (multi-byte
case). -/
lemma decodeRune_agree {p q : List Nat} {r w : Nat} (h2 : 2 ≤ w)
    (hd : decodeRune p = (r, w)) (hlen : w ≤ q.length)
    (hag : ∀ i, i < w → p.getD i 0 = q.getD i 0) :
    decodeRune q = (r, w) := by
  obtain ⟨hplen, hb0, hsz, hx⟩ := decodeRune_facts h2 hd
  have e0 : q.getD 0 0 = p.getD 0 0 := (hag 0 (by omega)).symm
  have e1 : q.getD 1 0 = p.getD 1 0 := (hag 1 (by omega)).symm
  unfold decodeRune at hd ⊢
  rw [e0, e1]
  rw [if_neg (show ¬ q.length < 1 by omega)]
  rw [if_neg hx]
  rw [if_neg (show ¬ q.length < utf8First (p.getD 0 0) &&& 7 by omega)]
  rw [if_neg (show ¬ p.length < 1 by omega)] at hd
  rw [if_neg hx] at hd
  rw [if_neg (show ¬ p.length < utf8First (p.getD 0 0) &&& 7 by omega)] at hd
  by_cases c4 : p.getD 1 0 < (acceptRanges.getD (utf8First (p.getD 0 0) >>> 4) ⟨0, 0⟩).lo ∨
      (acceptRanges.getD (utf8First (p.getD 0 0) >>> 4) ⟨0, 0⟩).hi < p.getD 1 0
  · rw [if_pos c4] at hd; injection hd with hr hw; omega
  · rw [if_neg c4] at hd ⊢
    by_cases c5 : utf8First (p.getD 0 0) &&& 7 ≤ 2
    · rw [if_pos c5] at hd ⊢; exact hd
    · rw [if_neg c5] at hd ⊢
      have e2 : q.getD 2 0 = p.getD 2 0 := (hag 2 (by omega)).symm
      rw [e2]
      by_cases c6 : p.getD 2 0 < 0x80 ∨ 0xBF < p.getD 2 0
      · rw [if_pos c6] at hd; injection hd with hr hw; omega
      · rw [if_neg c6] at hd ⊢
        by_cases c7 : utf8First (p.getD 0 0) &&& 7 ≤ 3
        · rw [if_pos c7] at hd ⊢; exact hd
        · rw [if_neg c7] at hd ⊢
          have e3 : q.getD 3 0 = p.getD 3 0 := (hag 3 (by omega)).symm
          rw [e3]
          by_cases c8 : p.getD 3 0 < 0x80 ∨ 0xBF < p.getD 3 0
          · rw [if_pos c8] at hd; injection hd with hr hw; omega
          · rw [if_neg c8] at hd ⊢; exact hd

/-- An ASCII byte decodes to itself with size 1, whatever follows. -/
lemma decodeRune_ascii {b : Nat} (t : List Nat) (hb : b ≤ 0x7F) :
    decodeRune (b :: t) = (b, 1) := by
  have hf : utf8First b = 0xF0 := by unfold utf8First; rw [if_pos hb]
  unfold decodeRune
  rw [if_neg (by simp)]
  simp [hf]

/-! ### Facts about the scanner -/

lemma scanRunesStep_ascii {b : Nat} (t : List Nat) (hb : b < 0x80) :
    scanRunesStep (b :: t) true = (1, [b]) := by
  unfold scanRunesStep
  rw [if_neg (by simp)]
  simp [hb]

lemma scanRunesStep_multi {data : List Nat} {r w : Nat} (h2 : 2 ≤ w)
    (hd : decodeRune data = (r, w)) :
    scanRunesStep data true = (w, data.take w) := by
  obtain ⟨hlen, hb0, -, -⟩ := decodeRune_facts h2 hd
  match data, hlen with
  | b :: t, _ =>
    have hb : ¬ b < 0x80 := by
      have : (b :: t).getD 0 0 = b := rfl
      omega
    unfold scanRunesStep
    rw [if_neg (by simp)]
    dsimp only
    rw [if_neg hb, hd]
    rw [if_pos (by omega)]

lemma scanRunesStep_invalid {b : Nat} (t : List Nat) (hb : 0x80 ≤ b)
    (hw : (decodeRune (b :: t)).2 ≤ 1) :
    scanRunesStep (b :: t) true = (1, errorRuneBytes) := by
  unfold scanRunesStep
  rw [if_neg (by simp)]
  dsimp only
  rw [if_neg (by omega)]
  rw [if_neg (by omega)]
  rw [if_neg (by simp)]

lemma scanRunesStep_adv_pos (b : Nat) (t : List Nat) :
    1 ≤ (scanRunesStep (b :: t) true).1 := by
  by_cases hb : b < 0x80
  · rw [scanRunesStep_ascii t hb]
  · by_cases hw : (decodeRune (b :: t)).2 ≤ 1
    · rw [scanRunesStep_invalid t (by omega) hw]
    · rw [scanRunesStep_multi (by omega)
        (show decodeRune (b :: t) = ((decodeRune (b :: t)).1, (decodeRune (b :: t)).2) from rfl)]
      omega

lemma scanTokensGo_nil (fuel : Nat) : scanTokensGo fuel [] = [] := by
  cases fuel <;> rfl

lemma scanTokensGo_cons (fuel : Nat) (b : Nat) (t : List Nat) :
    scanTokensGo (fuel + 1) (b :: t) =
      (scanRunesStep (b :: t) true).2 ::
        scanTokensGo fuel ((b :: t).drop (scanRunesStep (b :: t) true).1) := rfl

/-- Any two sufficient fuel budgets tokenize identically. -/
lemma scanTokensGo_congr :
    ∀ f1 f2 data, data.length ≤ f1 → data.length ≤ f2 →
      scanTokensGo f1 data = scanTokensGo f2 data := by
  intro f1
  induction f1 with
  | zero =>
    intro f2 data h1 _
    have : data = [] := List.length_eq_zero.mp (by omega)
    subst this
    rw [scanTokensGo_nil, scanTokensGo_nil]
  | succ f1 ih =>
    intro f2 data h1 h2
    match data with
    | [] => rw [scanTokensGo_nil, scanTokensGo_nil]
    | b :: t =>
      have hadv := scanRunesStep_adv_pos b t
      cases f2 with
      | zero => exact absurd h2 (by simp)
      | succ f2 =>
        rw [scanTokensGo_cons, scanTokensGo_cons]
        have hdl : ∀ g : Nat, (b :: t).length ≤ g + 1 →
            ((b :: t).drop (scanRunesStep (b :: t) true).1).length ≤ g := by
          intro g hg
          rw [List.length_drop]
          simp only [List.length_cons] at hg ⊢
          omega
        rw [ih f2 _ (hdl f1 h1) (hdl f2 h2)]

lemma scanTokens_nil : scanTokens [] = [] := rfl

/-- One scanner step of the tokenization. -/
lemma scanTokens_cons_eq (b : Nat) (t : List Nat) :
    scanTokens (b :: t) =
      (scanRunesStep (b :: t) true).2 ::
        scanTokens ((b :: t).drop (scanRunesStep (b :: t) true).1) := by
  unfold scanTokens
  rw [show (b :: t).length = t.length + 1 from rfl, scanTokensGo_cons]
  congr 1
  refine scanTokensGo_congr _ _ _ ?_ (le_refl _)
  rw [List.length_drop]
  have := scanRunesStep_adv_pos b t
  simp only [List.length_cons]
  omega

/-- An ASCII byte is its own one-byte token. -/
lemma scanTokens_cons_ascii {b : Nat} (t : List Nat) (hb : b < 0x80) :
    scanTokens (b :: t) = [b] :: scanTokens t := by
  rw [scanTokens_cons_eq, scanRunesStep_ascii t hb]
  rfl

/-- A byte that starts an erroneous encoding yields the replacement-rune
token and advances one byte. -/
lemma scanTokens_cons_invalid {b : Nat} (t : List Nat) (hb : 0x80 ≤ b)
    (hw : (decodeRune (b :: t)).2 ≤ 1) :
    scanTokens (b :: t) = errorRuneBytes :: scanTokens t := by
  rw [scanTokens_cons_eq, scanRunesStep_invalid t hb hw]
  rfl

/-- A complete multi-byte encoding at the head of the stream is one token. -/
lemma scanTokens_cons_full {tok : List Nat} (rest : List Nat) {r : Nat}
    (h2 : 2 ≤ tok.length) (hd : decodeRune tok = (r, tok.length)) :
    scanTokens (tok ++ rest) = tok :: scanTokens rest := by
  have hd2 : decodeRune (tok ++ rest) = (r, tok.length) :=
    decodeRune_agree h2 hd (by rw [List.length_append]; omega)
      (fun i hi => (getD_append_lt (by omega)).symm)
  have hstep : scanRunesStep (tok ++ rest) true = (tok.length, tok) := by
    rw [scanRunesStep_multi h2 hd2, List.take_left]
  match tok, h2, hd2, hstep with
  | b :: t, _, hd2, hstep =>
    rw [List.cons_append] at hstep ⊢
    rw [scanTokens_cons_eq, hstep]
    dsimp only
    congr 1
    rw [← List.cons_append, List.drop_left]

/-- Every token the scanner produces is nonempty and is the complete UTF-8
encoding of the rune it decodes to. -/
lemma scanTokensGo_full :
    ∀ fuel data tok, tok ∈ scanTokensGo fuel data →
      tok ≠ [] ∧ ∃ r, decodeRune tok = (r, tok.length) := by
  intro fuel
  induction fuel with
  | zero =>
    intro data tok h
    rw [show scanTokensGo 0 data = [] from by cases data <;> rfl] at h
    exact absurd h (List.not_mem_nil tok)
  | succ fuel ih =>
    intro data tok h
    match data with
    | [] =>
      rw [scanTokensGo_nil] at h
      exact absurd h (List.not_mem_nil tok)
    | b :: t =>
      rw [scanTokensGo_cons] at h
      rcases List.mem_cons.mp h with heq | hmem
      · subst heq
        by_cases hb : b < 0x80
        · rw [scanRunesStep_ascii t hb]
          exact ⟨by simp, b, decodeRune_ascii [] (by omega)⟩
        · by_cases hw : (decodeRune (b :: t)).2 ≤ 1
          · rw [scanRunesStep_invalid t (by omega) hw]
            exact ⟨by decide, 0xFFFD, by decide⟩
          · have hd : decodeRune (b :: t) = ((decodeRune (b :: t)).1, (decodeRune (b :: t)).2) :=
              rfl
            rw [scanRunesStep_multi (by omega) hd]
            dsimp only
            have hlen : (decodeRune (b :: t)).2 ≤ (b :: t).length :=
              (decodeRune_facts (by omega) hd).1
            have htl : ((b :: t).take (decodeRune (b :: t)).2).length = (decodeRune (b :: t)).2 := by
              rw [List.length_take]; omega
            refine ⟨?_, (decodeRune (b :: t)).1, ?_⟩
            · intro hemp
              rw [hemp] at htl
              simp only [List.length_nil] at htl
              omega
            · rw [htl]
              exact decodeRune_agree (by omega) hd (by rw [htl])
                (fun i hi => (getD_take_lt hi).symm)
      · exact ih _ _ hmem

/-- Every token of the tokenization is a full rune encoding. -/
lemma scanTokens_full {data tok : List Nat} (h : tok ∈ scanTokens data) :
    tok ≠ [] ∧ ∃ r, decodeRune tok = (r, tok.length) :=
  scanTokensGo_full data.length data tok h

/-! ### Facts about the copy loop -/

lemma writeRunesGo_nil (fa : FlushAction) (failAt : Option Nat) (pat : Nat → Int)
    (fuel wc : Nat) : writeRunesGo fa failAt pat fuel wc [] = ([], wc, true) := by
  cases fuel <;> rfl

/-- On a complete rune encoding the inner loop runs exactly once: one
patience call, then either the failing write (error returned at once, no
flush, no sleep) or the write of the whole token followed by flush and
sleep. -/
lemma writeRunes_full {bs : List Nat} {r : Nat} (fa : FlushAction) (failAt : Option Nat)
    (pat : Nat → Int) (wc : Nat) (hne : bs ≠ []) (hd : decodeRune bs = (r, bs.length)) :
    writeRunes fa failAt pat wc bs =
      if failAt = some wc then ([Event.pat r (pat r)], wc + 1, false)
      else ([Event.pat r (pat r), Event.write bs, Event.flush fa, Event.sleep (pat r)],
            wc + 1, true) := by
  match bs, hne with
  | b :: t, _ =>
    unfold writeRunes
    rw [show (b :: t).length = t.length + 1 from rfl]
    unfold writeRunesGo
    rw [hd]
    simp only [List.take_length, List.drop_length, writeRunesGo_nil]

lemma writeEventsList_append (a b : List Event) :
    writeEventsList (a ++ b) = writeEventsList a ++ writeEventsList b :=
  List.filterMap_append a b _

lemma sleepCount_append (a b : List Event) :
    sleepCount (a ++ b) = sleepCount a + sleepCount b := by
  unfold sleepCount
  rw [List.filterMap_append, List.length_append]

lemma flushActionsList_append (a b : List Event) :
    flushActionsList (a ++ b) = flushActionsList a ++ flushActionsList b :=
  List.filterMap_append a b _

lemma patCallsList_append (a b : List Event) :
    patCallsList (a ++ b) = patCallsList a ++ patCallsList b :=
  List.filterMap_append a b _

lemma copyTokens_nil (fa : FlushAction) (failAt : Option Nat) (pat : Nat → Int) (wc : Nat) :
    copyTokens fa failAt pat wc [] = ([], wc, true) := rfl

lemma copyTokens_cons (fa : FlushAction) (failAt : Option Nat) (pat : Nat → Int) (wc : Nat)
    (bs : List Nat) (toks : List (List Nat)) :
    copyTokens fa failAt pat wc (bs :: toks) =
      if (writeRunes fa failAt pat wc bs).2.2 then
        ((writeRunes fa failAt pat wc bs).1 ++
           (copyTokens fa failAt pat (writeRunes fa failAt pat wc bs).2.1 toks).1,
         (copyTokens fa failAt pat (writeRunes fa failAt pat wc bs).2.1 toks).2.1,
         (copyTokens fa failAt pat (writeRunes fa failAt pat wc bs).2.1 toks).2.2)
      else ((writeRunes fa failAt pat wc bs).1, (writeRunes fa failAt pat wc bs).2.1, false) := by
  rfl

/-- A failure-free run over full-rune tokens succeeds and writes exactly the
tokens, one sleep per token. -/
lemma copyTokens_none_spec (fa : FlushAction) (pat : Nat → Int) :
    ∀ toks wc, (∀ tok ∈ toks, tok ≠ [] ∧ ∃ r, decodeRune tok = (r, tok.length)) →
      (copyTokens fa none pat wc toks).2.2 = true ∧
      writeEventsList (copyTokens fa none pat wc toks).1 = toks ∧
      sleepCount (copyTokens fa none pat wc toks).1 = toks.length := by
  intro toks
  induction toks with
  | nil => intro wc _; exact ⟨rfl, rfl, rfl⟩
  | cons tok toks ih =>
    intro wc hfull
    obtain ⟨hne, r, hd⟩ := hfull tok (List.mem_cons_self tok toks)
    have hw := writeRunes_full fa none pat wc hne hd
    rw [if_neg (by simp)] at hw
    have ihw := ih (wc + 1) (fun tk hk => hfull tk (List.mem_cons_of_mem tok hk))
    rw [copyTokens_cons, hw]
    simp only [if_pos]
    rw [writeEventsList_append, sleepCount_append]
    refine ⟨ihw.1, ?_, ?_⟩
    · rw [ihw.2.1]
      rfl
    · rw [ihw.2.2]
      simp only [sleepCount, List.filterMap_cons, List.filterMap_nil, List.length_cons,
        List.length_nil]
      omega

/-- With the k-th write call doomed to fail, a run over full-rune tokens
either never reaches write k (success, one write and one sleep per token),
or stops at it: exactly the first `k - wc` tokens are written and slept. -/
lemma copyTokens_fail_spec (fa : FlushAction) (pat : Nat → Int) (k : Nat) :
    ∀ toks wc, (∀ tok ∈ toks, tok ≠ [] ∧ ∃ r, decodeRune tok = (r, tok.length)) →
      ((copyTokens fa (some k) pat wc toks).2.2 = true →
        writeEventsList (copyTokens fa (some k) pat wc toks).1 = toks ∧
        sleepCount (copyTokens fa (some k) pat wc toks).1 = toks.length ∧
        (k < wc ∨ wc + toks.length ≤ k)) ∧
      ((copyTokens fa (some k) pat wc toks).2.2 = false →
        wc ≤ k ∧
        writeEventsList (copyTokens fa (some k) pat wc toks).1 = toks.take (k - wc) ∧
        sleepCount (copyTokens fa (some k) pat wc toks).1 = k - wc) := by
  intro toks
  induction toks with
  | nil =>
    intro wc _
    refine ⟨fun _ => ⟨rfl, rfl, by simp only [List.length_nil]; omega⟩, fun hfalse => ?_⟩
    rw [show (copyTokens fa (some k) pat wc []).2.2 = true from rfl] at hfalse
    exact absurd hfalse (by simp)
  | cons tok toks ih =>
    intro wc hfull
    obtain ⟨hne, r, hd⟩ := hfull tok (List.mem_cons_self tok toks)
    have hw := writeRunes_full fa (some k) pat wc hne hd
    have ihw := ih (wc + 1) (fun tk hk => hfull tk (List.mem_cons_of_mem tok hk))
    by_cases hk : k = wc
    · subst hk
      rw [if_pos rfl] at hw
      rw [copyTokens_cons, hw]
      simp only [if_neg (Bool.false_ne_true)]
      refine ⟨fun htrue => absurd htrue (by simp), fun _ => ⟨le_refl k, ?_, ?_⟩⟩
      · simp [writeEventsList, List.filterMap_cons]
      · simp [sleepCount, List.filterMap_cons]
    · rw [if_neg (by simp [hk])] at hw
      rw [copyTokens_cons, hw]
      simp only [if_pos]
      rw [writeEventsList_append, sleepCount_append]
      constructor
      · intro htrue
        obtain ⟨hwr, hsl, hrange⟩ := ihw.1 htrue
        refine ⟨by rw [hwr]; rfl, ?_, by simp only [List.length_cons]; omega⟩
        rw [hsl]
        simp only [sleepCount, List.filterMap_cons, List.filterMap_nil, List.length_cons,
          List.length_nil]
        omega
      · intro hfalse
        obtain ⟨hle, hwr, hsl⟩ := ihw.2 hfalse
        have hwc : wc ≤ k := by omega
        refine ⟨hwc, ?_, ?_⟩
        · rw [hwr]
          have hkk : k - wc = (k - (wc + 1)) + 1 := by omega
          rw [hkk, List.take_succ_cons]
          rfl
        · rw [hsl]
          simp only [sleepCount, List.filterMap_cons, List.filterMap_nil, List.length_cons,
            List.length_nil]
          omega

/-- Every flush the inner loop performs is the single bound action. -/
lemma flushActions_writeRunesGo (fa : FlushAction) (failAt : Option Nat) (pat : Nat → Int) :
    ∀ fuel wc bs a, a ∈ flushActionsList (writeRunesGo fa failAt pat fuel wc bs).1 → a = fa := by
  intro fuel
  induction fuel with
  | zero =>
    intro wc bs a ha
    match bs with
    | [] => exact absurd ha (List.not_mem_nil a)
    | _ :: _ => exact absurd ha (List.not_mem_nil a)
  | succ fuel ih =>
    intro wc bs a ha
    match bs with
    | [] => exact absurd ha (List.not_mem_nil a)
    | b :: t =>
      by_cases hf : failAt = some wc
      · rw [show writeRunesGo fa failAt pat (fuel + 1) wc (b :: t) =
            if failAt = some wc then
              ([Event.pat (decodeRune (b :: t)).1 (pat (decodeRune (b :: t)).1)], wc + 1, false)
            else _ from rfl, if_pos hf] at ha
        exact absurd ha (by simp [flushActionsList, List.filterMap_cons])
      · rw [show writeRunesGo fa failAt pat (fuel + 1) wc (b :: t) =
            if failAt = some wc then _
            else
              (Event.pat (decodeRune (b :: t)).1 (pat (decodeRune (b :: t)).1) ::
                 Event.write ((b :: t).take (decodeRune (b :: t)).2) :: Event.flush fa ::
                 Event.sleep (pat (decodeRune (b :: t)).1) ::
                 (writeRunesGo fa failAt pat fuel (wc + 1) ((b :: t).drop (decodeRune (b :: t)).2)).1,
               (writeRunesGo fa failAt pat fuel (wc + 1) ((b :: t).drop (decodeRune (b :: t)).2)).2.1,
               (writeRunesGo fa failAt pat fuel (wc + 1) ((b :: t).drop (decodeRune (b :: t)).2)).2.2)
            from rfl, if_neg hf] at ha
        simp only [flushActionsList, List.filterMap_cons] at ha
        rcases List.mem_cons.mp ha with heq | hmem
        · exact heq
        · exact ih (wc + 1) _ a hmem

/-- Every flush the whole copy performs is the single bound action. -/
lemma flushActions_copyTokens (fa : FlushAction) (failAt : Option Nat) (pat : Nat → Int) :
    ∀ toks wc a, a ∈ flushActionsList (copyTokens fa failAt pat wc toks).1 → a = fa := by
  intro toks
  induction toks with
  | nil => intro wc a ha; exact absurd ha (List.not_mem_nil a)
  | cons tok toks ih =>
    intro wc a ha
    rw [copyTokens_cons] at ha
    by_cases hok : (writeRunes fa failAt pat wc tok).2.2
    · rw [if_pos hok] at ha
      rw [flushActionsList_append] at ha
      rcases List.mem_append.mp ha with hmem | hmem
      · exact flushActions_writeRunesGo fa failAt pat tok.length wc tok a hmem
      · exact ih _ a hmem
    · rw [if_neg hok] at ha
      exact flushActions_writeRunesGo fa failAt pat tok.length wc tok a ha

/-! ### Facts about the patience function and the full copy -/

lemma bePatient_some {bits : Nat} (i s : Int) (hb : bits ≤ 7) :
    bePatient bits i s =
      some fun b => i + s * ((((1 <<< bits) - 1 : Nat) &&& b : Nat) : Int) := by
  unfold bePatient
  rw [if_neg (by omega)]

/-- Masking with `(1 << bits) - 1` keeps exactly the low `bits` bits. -/
lemma land_mask (bits c : Nat) : ((1 <<< bits) - 1) &&& c = c % 2 ^ bits := by
  rw [Nat.one_shiftLeft, Nat.and_comm, Nat.and_pow_two_sub_one_eq_mod]

/-- The trace of the copy, independent of how the result is classified. -/
lemma copy_trace (dst : DstWriter) (src : Src) (pat : Nat → Int) :
    (copyRunesWithPatience dst src pat).1 =
      (copyTokens (makeFlush dst.caps) dst.failAt pat 0 (scanTokens src.bytes)).1 := by
  unfold copyRunesWithPatience
  dsimp only
  split <;> rfl

/-- The result of the copy in terms of the outer loop's success flag. -/
lemma copy_result (dst : DstWriter) (src : Src) (pat : Nat → Int) :
    (copyRunesWithPatience dst src pat).2 =
      if (copyTokens (makeFlush dst.caps) dst.failAt pat 0 (scanTokens src.bytes)).2.2 then
        (if src.readErr then some CopyError.readErr else none)
      else some CopyError.writeErr := by
  unfold copyRunesWithPatience
  dsimp only
  split <;> rfl

/-- A failure-free copy writes exactly the scanner's tokens. -/
lemma copy_writes_tokens (caps : WriterCaps) (e : Bool) (pat : Nat → Int) (bytes : List Nat) :
    writeEventsList (copyRunesWithPatience ⟨caps, none⟩ ⟨bytes, e⟩ pat).1 = scanTokens bytes := by
  have hfull : ∀ tok ∈ scanTokens bytes, tok ≠ [] ∧ ∃ r, decodeRune tok = (r, tok.length) :=
    fun tok h => scanTokens_full h
  have hspec := copyTokens_none_spec (makeFlush caps) pat (scanTokens bytes) 0 hfull
  rw [copy_trace]
  exact hspec.2.1

/-! ### The claims -/

/-- C1: for every Unicode code point `c` and parameters with `bits ≤ 7`, the
constructed delay function returns `initial + step * (mask AND c)` with
`mask = (1 << bits) - 1`, the mask being applied to the full integer value of
the code point — equivalently `initial + step * (c mod 2^bits)`, also for
code points above 255. -/
theorem bePatient_masks_full_codepoint (bits : Nat) (i s : Int) (c : Nat)
    (hb : bits ≤ 7) (_hc : c ≤ 0x10FFFF) :
    ∃ f, bePatient bits i s = some f ∧
      f c = i + s * ((((1 <<< bits) - 1 : Nat) &&& c : Nat) : Int) ∧
      f c = i + s * ((c % 2 ^ bits : Nat) : Int) := by
  refine ⟨_, bePatient_some i s hb, rfl, ?_⟩
  simp only [land_mask]

theorem bePatient_masks_full_codepoint_witness :
    (3 ≤ 7 ∧ 0x2603 ≤ 0x10FFFF) ∧
      ∃ f, bePatient 3 10 100 = some f ∧
        f 0x2603 = 10 + 100 * ((((1 <<< 3) - 1 : Nat) &&& 0x2603 : Nat) : Int) ∧
        f 0x2603 = 10 + 100 * ((0x2603 % 2 ^ 3 : Nat) : Int) :=
  ⟨⟨by decide, by decide⟩,
   bePatient_masks_full_codepoint 3 10 100 0x2603 (by decide) (by decide)⟩

/-- C5: for every `bits ≥ 8` the construction of the delay function fails at
once (`panic("too many bits")`); the process aborts before any input
character is processed — no output, no diagnostics, the copy never runs. -/
theorem bePatient_rejects_wide_bits (bits : Nat) (i s : Int) (dbg : Bool)
    (dst : DstWriter) (src : Src) (hb : 8 ≤ bits) :
    bePatient bits i s = none ∧
      runMain bits i s dbg dst src = ⟨2, [], [], none⟩ := by
  have h : bePatient bits i s = none := by
    unfold bePatient
    rw [if_pos (by omega)]
  refine ⟨h, ?_⟩
  unfold runMain
  rw [h]

theorem bePatient_rejects_wide_bits_witness :
    8 ≤ 8 ∧
      (bePatient 8 0 0 = none ∧
        runMain 8 0 0 false ⟨⟨FlushSig.missing, true⟩, none⟩ ⟨[0x41], false⟩ = ⟨2, [], [], none⟩) :=
  ⟨by decide,
   bePatient_rejects_wide_bits 8 0 0 false ⟨⟨FlushSig.missing, true⟩, none⟩ ⟨[0x41], false⟩
     (by decide)⟩

/-- C6: the debug wrapper returns exactly the wrapped function's delay for
every character; wrapping only adds the printed diagnostic line. -/
theorem printImpatiently_preserves_delay (f : Nat → Int) (c : Nat) :
    (printImpatiently f c).2 = f c := rfl

/-- C2 (documents the divergence): on a run whose stream copy reports a read
error, `main` discards the returned error (`main.go:37`) and the process
still exits 0. -/
theorem main_ignores_copy_error :
    (runMain 3 1000000000 100000000 false ⟨⟨FlushSig.missing, true⟩, none⟩
        ⟨[], true⟩).copyResult = some (some CopyError.readErr) ∧
      (runMain 3 1000000000 100000000 false ⟨⟨FlushSig.missing, true⟩, none⟩
        ⟨[], true⟩).exitCode = 0 :=
  ⟨rfl, rfl⟩

/-- C3: the flush action bound at setup agrees, for every destination, with
the spec's priority order (the two flush signatures are mutually exclusive
for a Go type, so the two orders coincide), and every flush the copy performs
is that one bound action. -/
theorem makeFlush_priority (dst : DstWriter) (src : Src) (pat : Nat → Int) (a : FlushAction)
    (ha : a ∈ flushActionsList (copyRunesWithPatience dst src pat).1) :
    makeFlushSpecOrder dst.caps = makeFlush dst.caps ∧ a = makeFlush dst.caps := by
  constructor
  · rcases dst.caps with ⟨sig, sync⟩
    cases sig <;> rfl
  · rw [copy_trace] at ha
    exact flushActions_copyTokens (makeFlush dst.caps) dst.failAt pat (scanTokens src.bytes) 0 a ha

theorem makeFlush_priority_witness :
    FlushAction.noop ∈
        flushActionsList
          (copyRunesWithPatience ⟨⟨FlushSig.missing, false⟩, none⟩ ⟨[0x41], false⟩
            (fun _ => 0)).1 ∧
      (makeFlushSpecOrder ⟨FlushSig.missing, false⟩ = makeFlush ⟨FlushSig.missing, false⟩ ∧
        FlushAction.noop = makeFlush ⟨FlushSig.missing, false⟩) :=
  ⟨by decide,
   makeFlush_priority ⟨⟨FlushSig.missing, false⟩, none⟩ ⟨[0x41], false⟩ (fun _ => 0)
     FlushAction.noop (by decide)⟩

/-- C4: when the copy reports a write failure with the k-th write call doomed,
exactly the k characters before the failing one were written (in stream
order) and exactly k sleeps happened — no character after the failing one is
written and no delay is applied for the failed character. -/
theorem copy_stops_at_failed_write (caps : WriterCaps) (src : Src) (pat : Nat → Int) (k : Nat)
    (herr : (copyRunesWithPatience ⟨caps, some k⟩ src pat).2 = some CopyError.writeErr) :
    writeEventsList (copyRunesWithPatience ⟨caps, some k⟩ src pat).1
        = (scanTokens src.bytes).take k ∧
      sleepCount (copyRunesWithPatience ⟨caps, some k⟩ src pat).1 = k := by
  have hfull : ∀ tok ∈ scanTokens src.bytes, tok ≠ [] ∧ ∃ r, decodeRune tok = (r, tok.length) :=
    fun tok h => scanTokens_full h
  have hspec := copyTokens_fail_spec (makeFlush caps) pat k (scanTokens src.bytes) 0 hfull
  rw [copy_result] at herr
  by_cases hok :
      (copyTokens (makeFlush caps) (some k) pat 0 (scanTokens src.bytes)).2.2 = true
  · rw [if_pos hok] at herr
    split_ifs at herr
    all_goals simp at herr
  · have hfalse : (copyTokens (makeFlush caps) (some k) pat 0 (scanTokens src.bytes)).2.2
        = false := by
      revert hok
      cases (copyTokens (makeFlush caps) (some k) pat 0 (scanTokens src.bytes)).2.2 <;> simp
    obtain ⟨-, hwr, hsl⟩ := hspec.2 hfalse
    rw [copy_trace]
    dsimp only
    rw [hwr, hsl]
    simp

theorem copy_stops_at_failed_write_witness :
    (copyRunesWithPatience ⟨⟨FlushSig.missing, false⟩, some 1⟩ ⟨[0x41, 0x42, 0x43], false⟩
        (fun _ => 7)).2 = some CopyError.writeErr ∧
      (writeEventsList
          (copyRunesWithPatience ⟨⟨FlushSig.missing, false⟩, some 1⟩ ⟨[0x41, 0x42, 0x43], false⟩
            (fun _ => 7)).1 = (scanTokens [0x41, 0x42, 0x43]).take 1 ∧
        sleepCount
          (copyRunesWithPatience ⟨⟨FlushSig.missing, false⟩, some 1⟩ ⟨[0x41, 0x42, 0x43], false⟩
            (fun _ => 7)).1 = 1) :=
  ⟨by decide,
   copy_stops_at_failed_write ⟨FlushSig.missing, false⟩ ⟨[0x41, 0x42, 0x43], false⟩
     (fun _ => 7) 1 (by decide)⟩

/-- C8: a valid multi-byte character at the head of the stream is delivered
as one single write of all its bytes before anything of the remaining input
is written; character bytes are never split across writes. -/
theorem multibyte_single_write (p q : List Nat) (r : Nat) (caps : WriterCaps) (e : Bool)
    (pat : Nat → Int) (h2 : 2 ≤ p.length) (hd : decodeRune p = (r, p.length)) :
    writeEventsList (copyRunesWithPatience ⟨caps, none⟩ ⟨p ++ q, e⟩ pat).1
        = p :: writeEventsList (copyRunesWithPatience ⟨caps, none⟩ ⟨q, e⟩ pat).1 := by
  rw [copy_writes_tokens, copy_writes_tokens, scanTokens_cons_full q h2 hd]

theorem multibyte_single_write_witness :
    (2 ≤ [0xE2, 0x98, 0x83].length ∧
        decodeRune [0xE2, 0x98, 0x83] = (0x2603, [0xE2, 0x98, 0x83].length)) ∧
      writeEventsList
          (copyRunesWithPatience ⟨⟨FlushSig.missing, false⟩, none⟩
            ⟨[0xE2, 0x98, 0x83] ++ [0x41], false⟩ (fun n => (n : Int))).1
        = [0xE2, 0x98, 0x83] ::
            writeEventsList
              (copyRunesWithPatience ⟨⟨FlushSig.missing, false⟩, none⟩ ⟨[0x41], false⟩
                (fun n => (n : Int))).1 :=
  ⟨⟨by decide, by decide⟩,
   multibyte_single_write [0xE2, 0x98, 0x83] [0x41] 0x2603 ⟨FlushSig.missing, false⟩ false
     (fun n => (n : Int)) (by decide) (by decide)⟩

/-- C10 counterexample: for the single invalid byte 0xFF the copy does not
pass the byte through verbatim — the output is the three-byte encoding of
U+FFFD, not `[0xFF]`. -/
theorem invalid_byte_not_verbatim :
    writtenBytes
        (copyRunesWithPatience ⟨⟨FlushSig.missing, false⟩, none⟩ ⟨[0xFF], false⟩
          (fun r => (r : Int))).1 = [0xEF, 0xBF, 0xBD] ∧
      writtenBytes
        (copyRunesWithPatience ⟨⟨FlushSig.missing, false⟩, none⟩ ⟨[0xFF], false⟩
          (fun r => (r : Int))).1 ≠ [0xFF] :=
  ⟨by decide, by decide⟩

/-- C10 as amended: the copy writes the scanner's per-character tokens —
valid sequences byte-identical, but each byte of an erroneous encoding is
replaced by the three-byte UTF-8 encoding of U+FFFD (the input still advances
one byte per invalid byte), and the delay for such a byte is computed from
the replacement character U+FFFD, not from the raw byte value. -/
theorem copy_replaces_invalid_bytes (caps : WriterCaps) (e : Bool) (pat : Nat → Int)
    (input : List Nat) (b : Nat) (hb : 0x80 ≤ b) (hw : (decodeRune [b]).2 ≤ 1) :
    writeEventsList (copyRunesWithPatience ⟨caps, none⟩ ⟨input, e⟩ pat).1 = scanTokens input ∧
      scanTokens [b] = [errorRuneBytes] ∧
      (copyRunesWithPatience ⟨caps, none⟩ ⟨[b], e⟩ pat).1 =
        [Event.pat 0xFFFD (pat 0xFFFD), Event.write errorRuneBytes,
         Event.flush (makeFlush caps), Event.sleep (pat 0xFFFD)] := by
  have htok : scanTokens [b] = [errorRuneBytes] := scanTokens_cons_invalid [] hb hw
  refine ⟨copy_writes_tokens caps e pat input, htok, ?_⟩
  rw [copy_trace]
  dsimp only
  rw [htok, copyTokens_cons,
    writeRunes_full (makeFlush caps) none pat 0 (by decide)
      (show decodeRune errorRuneBytes = (0xFFFD, errorRuneBytes.length) from by decide),
    if_neg (show ¬ (none : Option Nat) = some 0 from by decide)]
  rfl

theorem copy_replaces_invalid_bytes_witness :
    (0x80 ≤ 0xFF ∧ (decodeRune [0xFF]).2 ≤ 1) ∧
      (writeEventsList
          (copyRunesWithPatience ⟨⟨FlushSig.missing, true⟩, none⟩ ⟨[0xFF, 0x41], false⟩
            (fun r => (r : Int))).1 = scanTokens [0xFF, 0x41] ∧
        scanTokens [0xFF] = [errorRuneBytes] ∧
        (copyRunesWithPatience ⟨⟨FlushSig.missing, true⟩, none⟩ ⟨[0xFF], false⟩
            (fun r => (r : Int))).1 =
          [Event.pat 0xFFFD ((0xFFFD : Nat) : Int), Event.write errorRuneBytes,
           Event.flush (makeFlush ⟨FlushSig.missing, true⟩),
           Event.sleep ((0xFFFD : Nat) : Int)]) :=
  ⟨⟨by decide, by decide⟩,
   copy_replaces_invalid_bytes ⟨FlushSig.missing, true⟩ false (fun r => (r : Int))
     [0xFF, 0x41] 0xFF (by decide) (by decide)⟩

/-- C9: under debug mode, for input "A", the copy destination is
`ioutil.Discard` so the real output stream receives zero bytes, and the
diagnostic stream receives exactly one record: the character as the quoted
literal `"A"`, its code point 0x41, and exactly the delay the unwrapped
delay function returns for it. -/
theorem debug_mode_single_record (bits : Nat) (i s : Int) (dst : DstWriter) (hb : bits ≤ 7) :
    ∃ f, bePatient bits i s = some f ∧
      runMain bits i s true dst ⟨[0x41], false⟩ =
        ⟨0, [], [⟨goQuoteRune 0x41, 0x41, f 0x41⟩], some none⟩ ∧
      goQuoteRune 0x41 = "\"A\"" := by
  refine ⟨_, bePatient_some i s hb, ?_, by decide⟩
  unfold runMain
  rw [bePatient_some i s hb]
  rfl

theorem debug_mode_single_record_witness :
    3 ≤ 7 ∧
      ∃ f, bePatient 3 5 7 = some f ∧
        runMain 3 5 7 true ⟨⟨FlushSig.missing, true⟩, none⟩ ⟨[0x41], false⟩ =
          ⟨0, [], [⟨goQuoteRune 0x41, 0x41, f 0x41⟩], some none⟩ ∧
        goQuoteRune 0x41 = "\"A\"" :=
  ⟨by decide, debug_mode_single_record 3 5 7 ⟨⟨FlushSig.missing, true⟩, none⟩ (by decide)⟩

/-! ### Facts about the wrapped delay values -/

lemma bePatient64_some {bits : Nat} (i s : Int) (hb : bits ≤ 7) :
    bePatient64 bits i s = some fun b =>
      wrap64 (i + wrap64 (s * ((((1 <<< bits) - 1 : Nat) &&& b : Nat) : Int))) := by
  unfold bePatient64
  rw [if_neg (by omega)]

lemma wrap64_eq_iff {x y : Int} : wrap64 x = wrap64 y ↔ (x - y) % 2 ^ 64 = 0 := by
  unfold wrap64
  simp only [show (2:Int) ^ 63 = 9223372036854775808 from by norm_num,
    show (2:Int) ^ 64 = 18446744073709551616 from by norm_num]
  omega

lemma wrap64_add_wrap64 (a b : Int) : wrap64 (a + wrap64 b) = wrap64 (a + b) := by
  unfold wrap64
  simp only [show (2:Int) ^ 63 = 9223372036854775808 from by norm_num,
    show (2:Int) ^ 64 = 18446744073709551616 from by norm_num]
  omega

/-- The wrapped delay set factors through the residues `k < 2^bits`. -/
lemma delaySet64_eq_image_range (bits : Nat) (i s : Int) (hb : bits ≤ 7) :
    delaySet64 bits i s
      = (Finset.range (2 ^ bits)).image
          (fun k : Nat => wrap64 (i + wrap64 (s * (k : Int)))) := by
  have hpow : (2 : Nat) ^ bits ≤ 2 ^ 7 := Nat.pow_le_pow_right (by omega) hb
  unfold delaySet64
  rw [bePatient64_some i s hb]
  apply Finset.ext
  intro x
  simp only [Finset.mem_image, Finset.mem_range]
  constructor
  · rintro ⟨c, hc, rfl⟩
    exact ⟨c % 2 ^ bits, Nat.mod_lt _ (Nat.pos_pow_of_pos bits (by omega)),
      by simp only [land_mask]⟩
  · rintro ⟨k, hk, rfl⟩
    refine ⟨k, by omega, ?_⟩
    simp only [land_mask, Nat.mod_eq_of_lt hk]

/-- Two residues collide exactly when the step times their distance is a
multiple of `2^64`. -/
lemma delay64_collision {s : Int} {k1 k2 : Nat} (i : Int) (hlt : k1 < k2)
    (heq : wrap64 (i + wrap64 (s * (k1 : Int))) = wrap64 (i + wrap64 (s * (k2 : Int)))) :
    (2 : Int) ^ 64 ∣ s * ((k2 - k1 : Nat) : Int) := by
  rw [wrap64_add_wrap64, wrap64_add_wrap64] at heq
  have h0 := wrap64_eq_iff.mp heq
  have hdvd : (2 : Int) ^ 64 ∣ (i + s * (k1 : Int)) - (i + s * (k2 : Int)) :=
    Int.dvd_of_emod_eq_zero h0
  have hrw : (i + s * (k1 : Int)) - (i + s * (k2 : Int))
      = -(s * ((k2 : Int) - (k1 : Int))) := by ring
  rw [hrw, dvd_neg] at hdvd
  rw [Nat.cast_sub (Nat.le_of_lt hlt)]
  exact hdvd

/-- C7 counterexample: the delay function does not always take `2^bits`
distinct values. With `stepDelay = 0` (a legal flag value, `bits = 1`) all
values coincide — one value, not 2; and even `stepDelay ≠ 0` is not enough:
with `stepDelay = -2^62` ns and the default `bits = 3`, the int64
multiplication wraps and only 4 distinct delays occur, not 8. -/
theorem delaySet64_not_two_pow :
    (delaySet64 1 0 0).card ≠ 2 ^ 1 ∧ (delaySet64 3 0 (-(2 ^ 62))).card ≠ 2 ^ 3 := by
  constructor
  · rw [delaySet64_eq_image_range 1 0 0 (by decide)]
    decide
  · rw [delaySet64_eq_image_range 3 0 (-(2 ^ 62)) (by decide)]
    decide

/-- C7 as amended: over the full code-point domain, every value the delay
function returns equals the 64-bit-wrapped value of `base + step*k` for some
`k < 2^bits` — for any `stepDelay`, including 0; and the function takes
exactly `2^bits` distinct values provided no product `step*d` with
`1 ≤ d < 2^bits` is a multiple of `2^64` — in particular whenever
`step ≠ 0` and the products stay inside int64. -/
theorem delaySet64_card_two_pow (bits : Nat) (i s : Int) (d : Int) (hb : bits ≤ 7)
    (hd : d ∈ delaySet64 bits i s) :
    (∃ k : Nat, k < 2 ^ bits ∧ d = wrap64 (i + wrap64 (s * (k : Int)))) ∧
      ((∀ dk : Nat, dk < 2 ^ bits → 1 ≤ dk → ¬ (2 : Int) ^ 64 ∣ s * (dk : Int)) →
        (delaySet64 bits i s).card = 2 ^ bits) ∧
      (s ≠ 0 → s.natAbs * (2 ^ bits - 1) < 2 ^ 64 →
        (delaySet64 bits i s).card = 2 ^ bits) := by
  have himg := delaySet64_eq_image_range bits i s hb
  have hcount : (∀ dk : Nat, dk < 2 ^ bits → 1 ≤ dk → ¬ (2 : Int) ^ 64 ∣ s * (dk : Int)) →
      (delaySet64 bits i s).card = 2 ^ bits := by
    intro hnc
    have hinj : Set.InjOn (fun k : Nat => wrap64 (i + wrap64 (s * (k : Int))))
        (Finset.range (2 ^ bits)) := by
      intro k1 h1 k2 h2 heq
      simp only [Finset.coe_range, Set.mem_Iio] at h1 h2
      by_contra hne
      rcases Nat.lt_or_ge k1 k2 with hlt | hge
      · exact hnc (k2 - k1) (by omega) (by omega) (delay64_collision i hlt heq)
      · have hlt2 : k2 < k1 := by omega
        exact hnc (k1 - k2) (by omega) (by omega) (delay64_collision i hlt2 heq.symm)
    rw [himg, Finset.card_image_of_injOn hinj, Finset.card_range]
  refine ⟨?_, hcount, ?_⟩
  · rw [himg] at hd
    obtain ⟨k, hk, hdk⟩ := Finset.mem_image.mp hd
    exact ⟨k, Finset.mem_range.mp hk, hdk.symm⟩
  · intro hs hover
    apply hcount
    intro dk hdk h1 hdvd
    have hne : s * (dk : Int) ≠ 0 :=
      mul_ne_zero hs (Int.natCast_ne_zero.mpr (by omega))
    have habs : (s * (dk : Int)).natAbs = s.natAbs * dk := by
      rw [Int.natAbs_mul, Int.natAbs_ofNat]
    have hdvdn : 2 ^ 64 ∣ (s * (dk : Int)).natAbs := by
      have h := Int.natAbs_dvd_natAbs.mpr hdvd
      rw [Int.natAbs_pow] at h
      exact h
    have hge : 2 ^ 64 ≤ (s * (dk : Int)).natAbs :=
      Nat.le_of_dvd (Int.natAbs_pos.mpr hne) hdvdn
    have hlt : (s * (dk : Int)).natAbs < 2 ^ 64 := by
      rw [habs]
      calc s.natAbs * dk ≤ s.natAbs * (2 ^ bits - 1) :=
            Nat.mul_le_mul_left _ (by omega)
        _ < 2 ^ 64 := hover
    omega

theorem delaySet64_card_two_pow_witness :
    (1 ≤ 7 ∧ (0 : Int) ∈ delaySet64 1 0 1) ∧
      ((∃ k : Nat, k < 2 ^ 1 ∧ (0 : Int) = wrap64 (0 + wrap64 (1 * (k : Int)))) ∧
        (delaySet64 1 0 1).card = 2 ^ 1 ∧
        (delaySet64 1 0 1).card = 2 ^ 1) := by
  have hmem : (0 : Int) ∈ delaySet64 1 0 1 := by
    show (0 : Int) ∈ (Finset.range 0x110000).image
      (fun b => wrap64 (0 + wrap64 (1 * ((((1 <<< 1) - 1 : Nat) &&& b : Nat) : Int))))
    exact Finset.mem_image.mpr ⟨0, Finset.mem_range.mpr (by norm_num), by decide⟩
  have h := delaySet64_card_two_pow 1 0 1 0 (by decide) hmem
  exact ⟨⟨by decide, hmem⟩, h.1, h.2.1 (by decide), h.2.2 (by decide) (by decide)⟩
